import Mathlib

/-!
# Verification of the pdf-to-markdown converter

A shallow embedding of `pdf_to_markdown.py` (class `PDFToMarkdownConverter`).
Python strings are modelled as `List Char` (Python `len` = `List.length`);
the things the script does with them (slicing, `split`, `join`, `+`) map to
the corresponding list operations.  The Ollama HTTP endpoint and the PDF
library are external effects: they are modelled as explicit oracles passed
to the embedded functions, and the observable actions of the script
(generation calls, the final file write, opening/closing the PDF) are
recorded in explicit event traces.
-/

/-- The blank-line separator `"\n\n"` used by the paragraph split and the
various joins in the script. -/
def nn : List Char := ['\n', '\n']

/-- Python `\s` for the ASCII range (space, tab, newline, carriage return,
vertical tab, form feed), as used by the sentence-splitting regex
`(?<=[.!?])\s+` in `_chunk_text`. -/
def isPySpace (c : Char) : Bool :=
  c = ' ' || c = '\t' || c = '\n' || c = '\r' || c = Char.ofNat 11 || c = Char.ofNat 12

/-- The sentence-ending characters of the lookbehind `(?<=[.!?])`. -/
def isSentEnd (c : Char) : Bool :=
  c = '.' || c = '!' || c = '?'

/-- Python `text.split("\n\n")` (line 121 of `pdf_to_markdown.py`):
non-overlapping matches of the two-character separator are removed, scanning
left to right; the empty string yields `[""]`. -/
def splitParas : List Char → List (List Char)
  | [] => [[]]
  | '\n' :: '\n' :: rest => [] :: splitParas rest
  | c :: rest =>
    match splitParas rest with
    | [] => [[c]]
    | p :: ps => (c :: p) :: ps

/-- One scan of `re.split(r"(?<=[.!?])\s+", paragraph)` (line 136).
`prev` is the character preceding the current position (the lookbehind);
`skip` records that the scan is inside the whitespace run of a match (the
regex `\s+` is greedy, so the whole run is consumed).  After a run, the
preceding character is a whitespace character, which never satisfies the
lookbehind, so `prev` is represented by `' '` there. -/
def sentAux (skip : Bool) (prev : Char) : List Char → List (List Char)
  | [] => [[]]
  | c :: rest =>
    if skip && isPySpace c then
      sentAux true ' ' rest
    else if isSentEnd prev && isPySpace c then
      [] :: sentAux true ' ' rest
    else
      match sentAux false c rest with
      | [] => [[c]]
      | p :: ps => (c :: p) :: ps

/-- `re.split(r"(?<=[.!?])\s+", paragraph)`: a match cannot start at
position 0 because the lookbehind needs a preceding character, so the scan
starts with a non-matching previous character (`'A'` is neither a sentence
ender nor whitespace). -/
def reSplitSent (p : List Char) : List (List Char) :=
  sentAux false 'A' p

/-- The inner sentence-accumulation loop of `_chunk_text` (lines 139-146).
State is `(chunks, current_chunk)`; Python list `append` is modelled by
appending on the right. -/
def sentenceLoop (maxSize : Nat) : List (List Char) × List Char → List (List Char) → List (List Char) × List Char
  | st, [] => st
  | (chunks, current), s :: ss =>
    if current.length + s.length + 1 ≤ maxSize then
      sentenceLoop maxSize (chunks, (if current = [] then current else current ++ [' ']) ++ s) ss
    else
      sentenceLoop maxSize (chunks ++ [current], s) ss

/-- The body of the paragraph loop of `_chunk_text` (lines 125-148) for a
single paragraph. -/
def paraStep (maxSize : Nat) (st : List (List Char) × List Char) (p : List Char) : List (List Char) × List Char :=
  let chunks := st.1
  let current := st.2
  if current.length + p.length + 2 ≤ maxSize then
    (chunks, (if current = [] then current else current ++ nn) ++ p)
  else
    let chunks1 := if current = [] then chunks else chunks ++ [current]
    if maxSize < p.length then
      sentenceLoop maxSize (chunks1, []) (reSplitSent p)
    else
      (chunks1, p)

/-- `PDFToMarkdownConverter._chunk_text(text, max_chunk_size)`
(lines 109-153): split on blank lines, greedily accumulate paragraphs,
falling back to sentence granularity for oversized paragraphs, and flush
the trailing accumulator if non-empty. -/
def chunkText (text : List Char) (maxSize : Nat) : List (List Char) :=
  let st := (splitParas text).foldl (paraStep maxSize) ([], [])
  if st.2 = [] then st.1 else st.1 ++ [st.2]

/-- Python `"\n\n".join(xs)` (line 194), also used to re-join chunks at
paragraph boundaries. -/
def joinNN : List (List Char) → List Char
  | [] => []
  | [x] => x
  | x :: y :: ys => x ++ nn ++ joinNN (y :: ys)

/-- Join a chunk list with one separator between consecutive chunks, the
separators being supplied as a list (used to state the round-trip claim:
"rejoined with the same separators used during splitting"). -/
def joinSeps : List (List Char) → List (List Char) → List Char
  | [], _ => []
  | [c], _ => c
  | c :: c2 :: cs, [] => c ++ joinSeps (c2 :: cs) []
  | c :: c2 :: cs, s :: ss => c ++ s ++ joinSeps (c2 :: cs) ss

/-- The round-trip property claimed of the Chunker: some way of re-joining
the chunks, putting either a blank line or a single space between
consecutive chunks, reproduces the input text exactly. -/
def RoundTripClaim (text : List Char) (maxSize : Nat) : Prop :=
  ∃ seps : List (List Char),
    (∀ s ∈ seps, s = nn ∨ s = [' ']) ∧
    joinSeps (chunkText text maxSize) seps = text

/-- A chunk is within bound, or is verbatim one of the sentences of an
oversized paragraph of `P`. -/
def GoodChunk (P : List (List Char)) (maxSize : Nat) (c : List Char) : Prop :=
  c.length ≤ maxSize ∨ ∃ p ∈ P, maxSize < p.length ∧ c ∈ reSplitSent p

/-! ## Formatter client (`process_with_gemma`, lines 82-107) -/

/-- The instruction strings the script builds for its generation calls,
abstracted to their constructor and numeric parameters (each Python
f-string template corresponds to one constructor; the instruction text is
opaque to the control flow). -/
inductive Instr
  | chunkConv (pageNum chunkIdx chunkTotal : Nat)
  | combine (pageNum : Nat)
  | pageConv (pageNum : Nat)
  | finalPass
  | sectionPass (sectionNum : Nat)
  | boundaryClean
deriving DecidableEq

/-- The generation endpoint's HTTP response, as the script consumes it: the
status code, the parsed JSON object of the body (an association list of
fields), and the raw body text. -/
structure GenResponse where
  status : Nat
  json : List (List Char × List Char)
  text : List Char

/-- The `"response"` JSON field name. -/
def respKey : List Char := "response".data

/-- The prefix of the exception message
`f"Error processing with Gemma: {response.text}"` (line 107). -/
def errMsg (t : List Char) : List Char :=
  "Error processing with Gemma: ".data ++ t

/-- Lines 104-107 of `process_with_gemma`: on HTTP 200 return
`response.json().get("response", "")`, otherwise raise an exception whose
message carries the raw response body. -/
def handleResponse (r : GenResponse) : Except (List Char) (List Char) :=
  if r.status = 200 then Except.ok ((List.lookup respKey r.json).getD [])
  else Except.error (errMsg r.text)

/-! ## Assembler (`convert_to_markdown`, lines 155-261)

The endpoint is an oracle `net : content → instruction → GenResponse`
(the prompt sent on the wire is a fixed template instantiated with exactly
these two values, so the pair determines the request).  Each embedded
function returns the list of observable events it produces together with
its result; an exception aborts the function, returning the events produced
so far. -/

/-- An observable action of the conversion: one generation-endpoint call,
or the final write of the Markdown file. -/
inductive Event
  | call : List Char → Instr → Event
  | write : List Char → Event
deriving DecidableEq

/-- The chunk loop of the per-page phase (lines 183-191): format each chunk
of an oversized page with a chunk-numbered instruction, collecting the
outputs in order; `j` is the 0-based index of the first remaining chunk. -/
def processChunks (net : List Char → Instr → GenResponse) (pn total : Nat) :
    Nat → List (List Char) → List Event × Except (List Char) (List (List Char))
  | _, [] => ([], Except.ok [])
  | j, ch :: chs =>
    match handleResponse (net ch (Instr.chunkConv pn (j + 1) total)) with
    | Except.error e => ([Event.call ch (Instr.chunkConv pn (j + 1) total)], Except.error e)
    | Except.ok out =>
      match processChunks net pn total (j + 1) chs with
      | (es2, Except.error e) => (Event.call ch (Instr.chunkConv pn (j + 1) total) :: es2, Except.error e)
      | (es2, Except.ok outs) => (Event.call ch (Instr.chunkConv pn (j + 1) total) :: es2, Except.ok (out :: outs))

/-- The per-page processing (lines 176-213): a page longer than 8000
characters is chunked, each chunk formatted, and the blank-line join of the
chunk outputs submitted to a combining call; otherwise the page text is
formatted with a single call.  `pn` is the 1-based page number. -/
def processPage (net : List Char → Instr → GenResponse) (pn : Nat) (text : List Char) :
    List Event × Except (List Char) (List Char) :=
  if 8000 < text.length then
    match processChunks net pn (chunkText text 8000).length 0 (chunkText text 8000) with
    | (es, Except.error e) => (es, Except.error e)
    | (es, Except.ok outs) =>
      (es ++ [Event.call (joinNN outs) (Instr.combine pn)],
       handleResponse (net (joinNN outs) (Instr.combine pn)))
  else
    ([Event.call text (Instr.pageConv pn)], handleResponse (net text (Instr.pageConv pn)))

/-- The page loop (lines 171-215): process pages in order, appending each
page's output plus a trailing blank line to the running document buffer
`acc`; `i` is the 0-based index of the first remaining page. -/
def pagesLoop (net : List Char → Instr → GenResponse) :
    Nat → List (List Char) → List Char → List Event × Except (List Char) (List Char)
  | _, [], acc => ([], Except.ok acc)
  | i, t :: ts, acc =>
    match processPage net (i + 1) t with
    | (es, Except.error e) => (es, Except.error e)
    | (es, Except.ok out) =>
      match pagesLoop net (i + 1) ts (acc ++ out ++ nn) with
      | (es2, r) => (es ++ es2, r)

/-- Python `range(start, stop, 9000)` (the document-phase loop header
`range(0, len(full_content), section_size - overlap)`, line 234). -/
def rangeStride9000 (start stop : Nat) : List Nat :=
  if start < stop then start :: rangeStride9000 (start + 9000) stop else []
termination_by stop - start
decreasing_by omega

/-- The sectioning loop of the document phase (lines 234-243): take the
slice `full[i : i + 10000]` for each offset, format it with a
section-numbered instruction (`i // 9000 + 1`), and append the output to
the accumulator `acc` with no separator. -/
def sectionsLoop (net : List Char → Instr → GenResponse) (full : List Char) :
    List Nat → List Char → List Event × Except (List Char) (List Char)
  | [], acc => ([], Except.ok acc)
  | i :: is, acc =>
    match handleResponse (net ((full.drop i).take 10000) (Instr.sectionPass (i / 9000 + 1))) with
    | Except.error e => ([Event.call ((full.drop i).take 10000) (Instr.sectionPass (i / 9000 + 1))], Except.error e)
    | Except.ok out =>
      match sectionsLoop net full is (acc ++ out) with
      | (es2, r) => (Event.call ((full.drop i).take 10000) (Instr.sectionPass (i / 9000 + 1)) :: es2, r)

/-- The document phase (lines 227-253): a buffer longer than 12000
characters is processed in overlapping sections followed by one
boundary-cleanup call; otherwise one direct final-format call is made. -/
def documentPhase (net : List Char → Instr → GenResponse) (full : List Char) :
    List Event × Except (List Char) (List Char) :=
  if 12000 < full.length then
    match sectionsLoop net full (rangeStride9000 0 full.length) [] with
    | (es, Except.error e) => (es, Except.error e)
    | (es, Except.ok fc) =>
      (es ++ [Event.call fc Instr.boundaryClean], handleResponse (net fc Instr.boundaryClean))
  else
    ([Event.call full Instr.finalPass], handleResponse (net full Instr.finalPass))

/-- `convert_to_markdown` from the page loop onward (lines 171-261), for a
document given as the ordered list of its pages' extracted texts: page
phase, document phase, then — only if both succeeded — the write of the
final Markdown to the output file. -/
def convertToMarkdown (net : List Char → Instr → GenResponse) (pages : List (List Char)) :
    List Event × Except (List Char) (List Char) :=
  match pagesLoop net 0 pages [] with
  | (es, Except.error e) => (es, Except.error e)
  | (es, Except.ok full) =>
    match documentPhase net full with
    | (es2, Except.error e) => (es ++ es2, Except.error e)
    | (es2, Except.ok md) => (es ++ es2 ++ [Event.write md], Except.ok md)

/-! ## Extractor (`extract_text_from_pdf`, lines 36-80)

The PDF library is an oracle: the opened document is the list of its pages'
extraction outcomes (the extracted text, or the exception the library
raises for that page).  The handle events record the `fitz.open` and
`document.close()` calls. -/

/-- Acquiring and releasing the PDF file handle. -/
inductive PdfEvent
  | openDoc
  | closeDoc
deriving DecidableEq

/-- The page loop of `extract_text_from_pdf` (lines 49-77): build the page
records (1-based page number with the page's text) in document order; a
page whose extraction raises aborts the loop with that exception. -/
def extractLoop : Nat → List (Except (List Char) (List Char)) → Except (List Char) (List (Nat × List Char))
  | _, [] => Except.ok []
  | i, r :: rs =>
    match r with
    | Except.error e => Except.error e
    | Except.ok t =>
      match extractLoop (i + 1) rs with
      | Except.error e => Except.error e
      | Except.ok recs => Except.ok ((i + 1, t) :: recs)

/-- `extract_text_from_pdf`: open the document, run the page loop, and
close the document — the `close()` on line 79 is straight-line code after
the loop, so an exception raised inside the loop propagates out of the
function before it is reached. -/
def extractTextFromPdf (doc : List (Except (List Char) (List Char))) :
    List PdfEvent × Except (List Char) (List (Nat × List Char)) :=
  match extractLoop 0 doc with
  | Except.error e => ([PdfEvent.openDoc], Except.error e)
  | Except.ok recs => ([PdfEvent.openDoc, PdfEvent.closeDoc], Except.ok recs)

/-- The trace `es` ends with a generation call whose response had a
non-200 status, and `e` is the exception message built from that
response's raw body. -/
def FailTrace (net : List Char → Instr → GenResponse) (es : List Event) (e : List Char) : Prop :=
  ∃ t c i, es = t ++ [Event.call c i] ∧ (net c i).status ≠ 200 ∧ e = errMsg (net c i).text

/-- No file write occurs in the trace. -/
def NoWrite (es : List Event) : Prop :=
  ∀ x, Event.write x ∉ es

/-- The number of sections the document phase produces for a buffer of
length `n`: the number of multiples of 9000 below `n` (the spec's window
count, one window per stride). -/
def specWindowCount (n : Nat) : Nat := (n + 8999) / 9000

/-- The spec's description of the sectioning slice: the k-th window (from
0) is the 10000-character slice at offset `9000 * k` — stride 9000,
i.e. consecutive windows overlap by 1000 characters. -/
def specWindows (full : List Char) : List (List Char) :=
  (List.range (specWindowCount full.length)).map (fun k => (full.drop (9000 * k)).take 10000)

/-- The windows from index `k` on (used to relate the code's offset loop
to the window list). -/
def windowsFrom (full : List Char) (k : Nat) : List (List Char) :=
  (List.range' k (specWindowCount full.length - k)).map
    (fun j => (full.drop (9000 * j)).take 10000)

/-- The spec's description of the sectioning pass: format window `k`
(0-based) with the section instruction numbered `k + 1`, in order, and
concatenate the outputs with no separator. -/
def specSectionLoop (net : List Char → Instr → GenResponse) :
    Nat → List (List Char) → List Event × Except (List Char) (List Char)
  | _, [] => ([], Except.ok [])
  | k, w :: ws =>
    match handleResponse (net w (Instr.sectionPass (k + 1))) with
    | Except.error e => ([Event.call w (Instr.sectionPass (k + 1))], Except.error e)
    | Except.ok out =>
      match specSectionLoop net (k + 1) ws with
      | (es2, Except.error e) => (Event.call w (Instr.sectionPass (k + 1)) :: es2, Except.error e)
      | (es2, Except.ok rest) => (Event.call w (Instr.sectionPass (k + 1)) :: es2, Except.ok (out ++ rest))

/-- The continuation of the sectioning pass: propagate an error, or issue
the boundary-cleanup call over the concatenated section outputs. -/
def afterSections (net : List Char → Instr → GenResponse) :
    List Event × Except (List Char) (List Char) → List Event × Except (List Char) (List Char)
  | (es, Except.error e) => (es, Except.error e)
  | (es, Except.ok fc) =>
    (es ++ [Event.call fc Instr.boundaryClean], handleResponse (net fc Instr.boundaryClean))

/-- The spec's description of the whole oversized-document phase: run the
section pass over the overlapping windows, then one boundary-cleanup call
over the concatenated output. -/
def documentPhaseSpec (net : List Char → Instr → GenResponse) (full : List Char) :
    List Event × Except (List Char) (List Char) :=
  afterSections net (specSectionLoop net 0 (specWindows full))

/-- The concatenation of per-page outputs, each followed by the trailing
blank line the page loop appends (`full_content += processed_content +
"\n\n"`, line 215). -/
def concatPages : List (List Char) → List Char
  | [] => []
  | o :: os => o ++ nn ++ concatPages os

/-- The chunk outputs `couts` are exactly the responses to the chunk calls
of page `pn`: one call per chunk of the page's text, in chunker order,
with 1-based chunk numbers. -/
def ChunkCallsOk (net : List Char → Instr → GenResponse) (pn : Nat) (t : List Char)
    (couts : List (List Char)) : Prop :=
  couts.length = (chunkText t 8000).length ∧
  ∀ m, m < (chunkText t 8000).length →
    handleResponse (net ((chunkText t 8000).getD m [])
      (Instr.chunkConv pn (m + 1) (chunkText t 8000).length)) = Except.ok (couts.getD m [])

/-- A constant endpoint oracle that always answers HTTP 200 with an empty
JSON object (used to instantiate theorems at concrete inputs). -/
def okNet : List Char → Instr → GenResponse := fun _ _ => ⟨200, [], []⟩

/-- A constant endpoint oracle that always answers HTTP 500 with body
`"b"`. -/
def failNet : List Char → Instr → GenResponse := fun _ _ => ⟨500, [], ['b']⟩

/-! ## Lemmas about the Chunker -/

theorem splitParas_ne_nil (cs : List Char) : splitParas cs ≠ [] := by
  induction cs using splitParas.induct with
  | case1 => simp [splitParas]
  | case2 rest ih => simp [splitParas]
  | case3 c rest hg h ih => exact absurd h ih
  | case4 c rest hg p ps h ih => simp [splitParas, hg, h]

theorem joinNN_split (cs : List Char) : joinNN (splitParas cs) = cs := by
  induction cs using splitParas.induct with
  | case1 => simp [splitParas, joinNN]
  | case2 rest ih =>
    rcases hr : splitParas rest with _ | ⟨p, ps⟩
    · exact absurd hr (splitParas_ne_nil rest)
    · rw [hr] at ih
      simp [splitParas, hr, joinNN, nn, ih]
  | case3 c rest hg h ih => exact absurd h (splitParas_ne_nil rest)
  | case4 c rest hg p ps h ih =>
    rw [h] at ih
    have hunf : splitParas (c :: rest) = (c :: p) :: ps := by
      simp [splitParas, hg, h]
    rw [hunf]
    rcases ps with _ | ⟨q, qs⟩
    · simpa [joinNN] using congrArg (c :: ·) ih
    · rw [joinNN, ← ih, joinNN]
      simp

theorem sentAux_ne_nil (cs : List Char) : ∀ skip prev, sentAux skip prev cs ≠ [] := by
  induction cs with
  | nil => intro skip prev; simp [sentAux]
  | cons c rest ih =>
    intro skip prev
    rw [sentAux]
    split
    · exact ih true ' '
    · split
      · simp
      · rcases h : sentAux false c rest with _ | ⟨p, ps⟩ <;> simp

theorem reSplitSent_cons (c : Char) (rest : List Char) :
    ∃ p ps, reSplitSent (c :: rest) = (c :: p) :: ps := by
  rw [reSplitSent, sentAux]
  have h2 : (isSentEnd 'A' && isPySpace c) = false := by
    simp [isSentEnd]
  simp only [Bool.false_and, h2, Bool.false_eq_true, if_false]
  rcases h : sentAux false c rest with _ | ⟨p, ps⟩
  · exact ⟨[], [], rfl⟩
  · exact ⟨p, ps, rfl⟩

theorem joinNN_cons₂ (x y : List Char) (ys : List (List Char)) :
    joinNN (x :: y :: ys) = x ++ nn ++ joinNN (y :: ys) := rfl

theorem joinNN_append_single (l : List (List Char)) (x : List Char) (h : l ≠ []) :
    joinNN (l ++ [x]) = joinNN l ++ nn ++ x := by
  induction l using joinNN.induct with
  | case1 => exact absurd rfl h
  | case2 a => simp [joinNN]
  | case3 a b ys ih =>
    simp only [List.cons_append]
    rw [joinNN_cons₂, joinNN_cons₂]
    have hih := ih (by simp)
    simp only [List.cons_append] at hih
    rw [hih]
    simp [List.append_assoc]

theorem joinNN_last_append (l : List (List Char)) (x y : List Char) :
    joinNN (l ++ [x ++ y]) = joinNN (l ++ [x]) ++ y := by
  induction l using joinNN.induct with
  | case1 => simp [joinNN]
  | case2 a => simp [joinNN, List.append_assoc]
  | case3 a b ys ih =>
    simp only [List.cons_append]
    rw [joinNN_cons₂, joinNN_cons₂]
    simp only [List.cons_append] at ih
    rw [ih]
    simp [List.append_assoc]

-- ## chunk-list monotonicity

theorem sentenceLoop_chunks_mono (maxSize : Nat) :
    ∀ ss st (c : List Char), c ∈ st.1 → c ∈ (sentenceLoop maxSize st ss).1 := by
  intro ss
  induction ss with
  | nil => intro st c h; rcases st with ⟨chunks, current⟩; simpa [sentenceLoop] using h
  | cons s ss ih =>
    intro st c h
    rcases st with ⟨chunks, current⟩
    rw [sentenceLoop]
    split
    · exact ih _ c h
    · exact ih _ c (by simp [h])

theorem paraStep_chunks_mono (maxSize : Nat) (st : List (List Char) × List Char)
    (p : List Char) (c : List Char) (h : c ∈ st.1) : c ∈ (paraStep maxSize st p).1 := by
  rcases st with ⟨chunks, current⟩
  rw [paraStep]
  dsimp only
  split
  · exact h
  · have hc1 : c ∈ (if current = [] then chunks else chunks ++ [current]) := by
      split <;> simp [h]
    split
    · exact sentenceLoop_chunks_mono maxSize _ _ c hc1
    · exact hc1

theorem foldl_paraStep_mono (maxSize : Nat) :
    ∀ ps st (c : List Char), c ∈ st.1 → c ∈ (List.foldl (paraStep maxSize) st ps).1 := by
  intro ps
  induction ps with
  | nil => intro st c h; simpa using h
  | cons p ps ih =>
    intro st c h
    rw [List.foldl_cons]
    exact ih _ c (paraStep_chunks_mono maxSize st p c h)

-- ## non-emptiness

theorem sentenceLoop_NE (maxSize : Nat) :
    ∀ ss st, (st.1 ≠ [] ∨ st.2 ≠ []) →
      ((sentenceLoop maxSize st ss).1 ≠ [] ∨ (sentenceLoop maxSize st ss).2 ≠ []) := by
  intro ss
  induction ss with
  | nil => intro st h; rcases st with ⟨chunks, current⟩; simpa [sentenceLoop] using h
  | cons s ss ih =>
    intro st h
    rcases st with ⟨chunks, current⟩
    rw [sentenceLoop]
    split
    · apply ih
      rcases h with h | h
      · exact Or.inl h
      · refine Or.inr ?_
        simp [h]
    · apply ih
      exact Or.inl (by simp)

theorem paraStep_NE (maxSize : Nat) (st : List (List Char) × List Char) (p : List Char)
    (h : st.1 ≠ [] ∨ st.2 ≠ []) :
    ((paraStep maxSize st p).1 ≠ [] ∨ (paraStep maxSize st p).2 ≠ []) := by
  rcases st with ⟨chunks, current⟩
  rw [paraStep]
  dsimp only
  split
  · rcases h with h | h
    · exact Or.inl h
    · refine Or.inr ?_
      simp [h]
  · have hc1 : (if current = [] then chunks else chunks ++ [current]) ≠ [] := by
      rcases h with h | h
      · split <;> simp [h]
      · simp [h]
    split
    · exact sentenceLoop_NE maxSize _ _ (Or.inl hc1)
    · exact Or.inl hc1

theorem paraStep_NE_of_ne (maxSize : Nat) (st : List (List Char) × List Char) (p : List Char)
    (hp : p ≠ []) :
    ((paraStep maxSize st p).1 ≠ [] ∨ (paraStep maxSize st p).2 ≠ []) := by
  rcases st with ⟨chunks, current⟩
  rw [paraStep]
  dsimp only
  split
  · refine Or.inr ?_
    simp [hp]
  · split
    · rcases p with _ | ⟨c, rest⟩
      · exact absurd rfl hp
      · obtain ⟨q, qs, hq⟩ := reSplitSent_cons c rest
        rw [hq, sentenceLoop]
        split
        · exact sentenceLoop_NE maxSize _ _ (Or.inr (by simp))
        · exact sentenceLoop_NE maxSize _ _ (Or.inl (by simp))
    · exact Or.inr hp

theorem foldl_paraStep_NE (maxSize : Nat) :
    ∀ ps st, (st.1 ≠ [] ∨ st.2 ≠ []) →
      ((List.foldl (paraStep maxSize) st ps).1 ≠ [] ∨ (List.foldl (paraStep maxSize) st ps).2 ≠ []) := by
  intro ps
  induction ps with
  | nil => intro st h; simpa using h
  | cons p ps ih =>
    intro st h
    rw [List.foldl_cons]
    exact ih _ (paraStep_NE maxSize st p h)

-- ## size bound (C2)

theorem sentenceLoop_good (P : List (List Char)) (maxSize : Nat) :
    ∀ ss st, (∀ c ∈ st.1, GoodChunk P maxSize c) → GoodChunk P maxSize st.2 →
      (∀ s ∈ ss, ∃ p ∈ P, maxSize < p.length ∧ s ∈ reSplitSent p) →
      (∀ c ∈ (sentenceLoop maxSize st ss).1, GoodChunk P maxSize c) ∧
        GoodChunk P maxSize (sentenceLoop maxSize st ss).2 := by
  intro ss
  induction ss with
  | nil =>
    intro st h1 h2 _
    rcases st with ⟨chunks, current⟩
    exact ⟨h1, h2⟩
  | cons s ss ih =>
    intro st h1 h2 hss
    rcases st with ⟨chunks, current⟩
    rw [sentenceLoop]
    split
    · refine ih _ h1 ?_ (fun s hs => hss s (by simp [hs]))
      refine Or.inl ?_
      rename_i hfits
      split
      · simpa using Nat.le_of_succ_le hfits
      · simp only [List.length_append, List.length_cons, List.length_nil] at *
        omega
    · refine ih _ ?_ (Or.inr (hss s (by simp))) (fun s hs => hss s (by simp [hs]))
      intro c hc
      rcases List.mem_append.mp hc with h | h
      · exact h1 c h
      · rw [List.mem_singleton.mp h]
        exact h2

theorem paraStep_good (P : List (List Char)) (maxSize : Nat)
    (st : List (List Char) × List Char) (p : List Char) (hp : p ∈ P)
    (h1 : ∀ c ∈ st.1, GoodChunk P maxSize c) (h2 : GoodChunk P maxSize st.2) :
    (∀ c ∈ (paraStep maxSize st p).1, GoodChunk P maxSize c) ∧
      GoodChunk P maxSize (paraStep maxSize st p).2 := by
  rcases st with ⟨chunks, current⟩
  rw [paraStep]
  dsimp only
  split
  · refine ⟨h1, Or.inl ?_⟩
    rename_i hfits
    split
    · simp only [List.length_append] at *
      omega
    · simp only [List.length_append, nn, List.length_cons, List.length_nil] at *
      omega
  · have hc1 : ∀ c ∈ (if current = [] then chunks else chunks ++ [current]), GoodChunk P maxSize c := by
      split
      · exact h1
      · intro c hc
        rcases List.mem_append.mp hc with h | h
        · exact h1 c h
        · rw [List.mem_singleton.mp h]
          exact h2
    split
    · rename_i hbig
      exact sentenceLoop_good P maxSize _ _ hc1 (Or.inl (by simp))
        (fun s hs => ⟨p, hp, hbig, hs⟩)
    · rename_i hsmall
      refine ⟨hc1, Or.inl ?_⟩
      show p.length ≤ maxSize
      omega

theorem foldl_paraStep_good (P : List (List Char)) (maxSize : Nat) :
    ∀ ps st, (∀ p ∈ ps, p ∈ P) →
      (∀ c ∈ st.1, GoodChunk P maxSize c) → GoodChunk P maxSize st.2 →
      (∀ c ∈ (List.foldl (paraStep maxSize) st ps).1, GoodChunk P maxSize c) ∧
        GoodChunk P maxSize (List.foldl (paraStep maxSize) st ps).2 := by
  intro ps
  induction ps with
  | nil => intro st _ h1 h2; exact ⟨h1, h2⟩
  | cons p ps ih =>
    intro st hps h1 h2
    rw [List.foldl_cons]
    obtain ⟨g1, g2⟩ := paraStep_good P maxSize st p (hps p (by simp)) h1 h2
    exact ih _ (fun q hq => hps q (by simp [hq])) g1 g2

/-- Claim C2: every chunk returned by `chunk(text, max_size)` has length at
most `max_size`, except that an oversized chunk is always a single
indivisible sentence (an element of the sentence split of a paragraph
longer than `max_size`), emitted as its own chunk unmodified. -/
theorem c2_chunk_size_bound (text : List Char) (maxSize : Nat) (c : List Char)
    (hc : c ∈ chunkText text maxSize) :
    c.length ≤ maxSize ∨
      ∃ p ∈ splitParas text, maxSize < p.length ∧ c ∈ reSplitSent p := by
  have H := foldl_paraStep_good (splitParas text) maxSize (splitParas text) ([], [])
    (fun p hp => hp) (by simp) (Or.inl (by simp))
  simp only [chunkText] at hc
  revert hc
  split
  · intro hc
    exact H.1 c hc
  · intro hc
    rcases List.mem_append.mp hc with h | h
    · exact H.1 c h
    · rw [List.mem_singleton.mp h]
      exact H.2

-- ## C3: empty output characterisation

theorem paraStep_empty (maxSize : Nat) : paraStep maxSize ([], []) [] = ([], []) := by
  rw [paraStep]
  dsimp only
  split
  · simp
  · split
    · rename_i hbig
      simp at hbig
    · simp

theorem foldl_paraStep_empty (maxSize : Nat) :
    ∀ ps, (∀ p ∈ ps, p = []) → List.foldl (paraStep maxSize) ([], []) ps = ([], []) := by
  intro ps
  induction ps with
  | nil => intro _; rfl
  | cons p ps ih =>
    intro h
    rw [List.foldl_cons, h p (by simp), paraStep_empty]
    exact ih (fun q hq => h q (by simp [hq]))

/-- Claim C3, amended: `chunk` returns the empty sequence exactly when
every paragraph of the blank-line split is empty — that is, for the empty
text and also for non-empty texts consisting solely of blank-line
separators.  (The original claim, that every non-empty text yields at
least one chunk, fails: see the counterexample.) -/
theorem c3_amended_nonempty (text : List Char) (maxSize : Nat) :
    chunkText text maxSize = [] ↔ ∀ p ∈ splitParas text, p = [] := by
  constructor
  · intro h
    by_contra hno
    push_neg at hno
    obtain ⟨p, hp, hpne⟩ := hno
    obtain ⟨l, r, hlr⟩ := List.append_of_mem hp
    have hNE : (List.foldl (paraStep maxSize) ([], []) (splitParas text)).1 ≠ [] ∨
        (List.foldl (paraStep maxSize) ([], []) (splitParas text)).2 ≠ [] := by
      rw [hlr, List.foldl_append, List.foldl_cons]
      exact foldl_paraStep_NE maxSize r _
        (paraStep_NE_of_ne maxSize _ p hpne)
    simp only [chunkText] at h
    revert h
    split
    · intro h
      rename_i hcur
      rcases hNE with hNE | hNE
      · exact hNE h
      · exact hNE hcur
    · intro h
      simp at h
  · intro h
    have hfold := foldl_paraStep_empty maxSize (splitParas text) h
    simp [chunkText, hfold]

-- ## C9: the empty chunk

/-- Claim C9: whenever a paragraph longer than `max_size` begins with a
sentence whose length is at least `max_size`, the empty string is appended
to the chunk list before that sentence is carried forward, so the empty
string occurs among the returned chunks. -/
theorem c9_empty_chunk (text : List Char) (maxSize : Nat) (p : List Char)
    (hp : p ∈ splitParas text) (hbig : maxSize < p.length)
    (hhead : maxSize ≤ ((reSplitSent p).headD []).length) :
    [] ∈ chunkText text maxSize := by
  obtain ⟨l, r, hlr⟩ := List.append_of_mem hp
  have key : [] ∈ (List.foldl (paraStep maxSize) ([], []) (splitParas text)).1 := by
    rw [hlr, List.foldl_append, List.foldl_cons]
    apply foldl_paraStep_mono
    rcases hst0 : List.foldl (paraStep maxSize) ([], []) l with ⟨chunks, current⟩
    rw [paraStep]
    dsimp only
    rw [if_neg (by omega), if_pos hbig]
    cases p with
    | nil => simp at hbig
    | cons c rest =>
      obtain ⟨q, qs, hq⟩ := reSplitSent_cons c rest
      rw [hq] at hhead
      simp only [List.headD_cons] at hhead
      rw [hq, sentenceLoop]
      rw [if_neg (by simp only [List.length_nil]; omega)]
      apply sentenceLoop_chunks_mono
      simp
  simp only [chunkText]
  split
  · exact key
  · exact List.mem_append.mpr (Or.inl key)

-- ## C1: round trip

theorem joinSeps_mem : ∀ (cs ss : List (List Char)) (x : Char), x ∈ joinSeps cs ss →
    (∃ c ∈ cs, x ∈ c) ∨ (∃ s ∈ ss, x ∈ s) := by
  intro cs
  induction cs with
  | nil => intro ss x h; simp [joinSeps] at h
  | cons c cs' ih =>
    intro ss x h
    rcases cs' with _ | ⟨c2, cs''⟩
    · simp only [joinSeps] at h
      exact Or.inl ⟨c, by simp, h⟩
    · rcases ss with _ | ⟨s, ss'⟩
      · simp only [joinSeps] at h
        rcases List.mem_append.mp h with h | h
        · exact Or.inl ⟨c, by simp, h⟩
        · rcases ih [] x h with ⟨d, hd, hxd⟩ | ⟨s, hs, _⟩
          · exact Or.inl ⟨d, by simp [hd], hxd⟩
          · simp at hs
      · simp only [joinSeps] at h
        rcases List.mem_append.mp h with h | h
        · rcases List.mem_append.mp h with h | h
          · exact Or.inl ⟨c, by simp, h⟩
          · exact Or.inr ⟨s, by simp, h⟩
        · rcases ih ss' x h with ⟨d, hd, hxd⟩ | ⟨s2, hs2, hxs2⟩
          · exact Or.inl ⟨d, by simp [hd], hxd⟩
          · exact Or.inr ⟨s2, by simp [hs2], hxs2⟩

/-- Claim C1 is false: for the text `"ab.\tcd"` and `max_size = 3` no
re-joining of the chunks with blank-line or single-space separators
reproduces the input — the tab consumed by the sentence split occurs in no
chunk and in no separator. -/
theorem c1_counterexample : ¬ RoundTripClaim ['a', 'b', '.', '\t', 'c', 'd'] 3 := by
  rintro ⟨seps, hseps, hjoin⟩
  have htab : '\t' ∈ joinSeps (chunkText ['a', 'b', '.', '\t', 'c', 'd'] 3) seps := by
    rw [hjoin]
    decide
  rcases joinSeps_mem _ _ _ htab with ⟨c, hc, hxc⟩ | ⟨s, hs, hxs⟩
  · have hno : ∀ c ∈ chunkText ['a', 'b', '.', '\t', 'c', 'd'] 3, '\t' ∉ c := by decide
    exact hno c hc hxc
  · rcases hseps s hs with rfl | rfl
    · exact absurd hxs (by decide)
    · exact absurd hxs (by decide)

-- ## C1 amended: paragraph-level round trip

theorem foldl_paraStep_join (maxSize : Nat) :
    ∀ ps done st,
      (∀ p ∈ ps, p ≠ [] ∧ p.length ≤ maxSize) →
      ((done = [] ∧ st = ([], [])) ∨
        (done ≠ [] ∧ st.2 ≠ [] ∧ joinNN (st.1 ++ [st.2]) = joinNN done)) →
      ((done ++ ps = [] ∧ List.foldl (paraStep maxSize) st ps = ([], [])) ∨
        ((done ++ ps) ≠ [] ∧ (List.foldl (paraStep maxSize) st ps).2 ≠ [] ∧
          joinNN ((List.foldl (paraStep maxSize) st ps).1 ++
            [(List.foldl (paraStep maxSize) st ps).2]) = joinNN (done ++ ps))) := by
  intro ps
  induction ps with
  | nil =>
    intro done st _ hinv
    simpa using hinv
  | cons p ps ih =>
    intro done st hps hinv
    rw [List.foldl_cons]
    have hp := hps p (by simp)
    have step : ((done ++ [p]) ≠ [] ∧ (paraStep maxSize st p).2 ≠ [] ∧
        joinNN ((paraStep maxSize st p).1 ++ [(paraStep maxSize st p).2]) =
          joinNN (done ++ [p])) := by
      refine ⟨by simp, ?_⟩
      rcases hinv with ⟨hd, hst⟩ | ⟨hd, hcur, hJ⟩
      · subst hd
        subst hst
        rw [paraStep]
        dsimp only
        split
        · refine ⟨by simp [hp.1], by simp [joinNN]⟩
        · split
          · rename_i hbig
            exact absurd hbig (by omega)
          · refine ⟨by simp [hp.1], by simp [joinNN]⟩
      · rcases st with ⟨chunks, current⟩
        simp only at hcur hJ
        by_cases hfits : current.length + p.length + 2 ≤ maxSize
        · have hstep : paraStep maxSize (chunks, current) p = (chunks, (current ++ nn) ++ p) := by
            rw [paraStep]
            dsimp only
            rw [if_pos hfits, if_neg hcur]
          rw [hstep]
          refine ⟨by simp [hp.1], ?_⟩
          have h1 : (current ++ nn) ++ p = current ++ (nn ++ p) := by
            simp [List.append_assoc]
          dsimp only
          rw [h1, joinNN_last_append, hJ, joinNN_append_single done p hd]
          simp [List.append_assoc]
        · have hstep : paraStep maxSize (chunks, current) p = (chunks ++ [current], p) := by
            rw [paraStep]
            dsimp only
            rw [if_neg hfits, if_neg hcur, if_neg (show ¬ maxSize < p.length by omega)]
          rw [hstep]
          refine ⟨hp.1, ?_⟩
          dsimp only
          rw [joinNN_append_single (chunks ++ [current]) p (by simp), hJ,
            joinNN_append_single done p hd]
    have hres := ih (done ++ [p]) (paraStep maxSize st p)
      (fun q hq => hps q (by simp [hq])) (Or.inr step)
    simpa [List.append_assoc] using hres

/-- Claim C1, amended: the round trip does hold at paragraph granularity —
if every paragraph of the text is non-empty and no longer than `max_size`
(so the sentence split is never reached), re-joining the chunks with
blank-line separators reproduces the text exactly.  (As originally stated
the claim fails, because sentence splitting discards the inter-sentence
whitespace run: see the counterexample.) -/
theorem c1_amended_round_trip (text : List Char) (maxSize : Nat)
    (h : ∀ p ∈ splitParas text, p ≠ [] ∧ p.length ≤ maxSize) :
    joinNN (chunkText text maxSize) = text := by
  have H := foldl_paraStep_join maxSize (splitParas text) [] ([], []) h (Or.inl ⟨rfl, rfl⟩)
  simp only [List.nil_append] at H
  rcases H with ⟨hnil, _⟩ | ⟨hne, hcur, hJ⟩
  · exact absurd hnil (splitParas_ne_nil text)
  · simp only [chunkText]
    rw [if_neg hcur, hJ, joinNN_split]

/-- Witness for the amended claim C1 at a concrete input. -/
theorem c1_witness : joinNN (chunkText ['a', '\n', '\n', 'b'] 8000) = ['a', '\n', '\n', 'b'] :=
  c1_amended_round_trip ['a', '\n', '\n', 'b'] 8000 (by decide)

/-- Witness for claim C2 at a concrete input. -/
theorem c2_witness :
    (['a'] : List Char).length ≤ 8000 ∨
      ∃ p ∈ splitParas ['a'], 8000 < p.length ∧ ['a'] ∈ reSplitSent p :=
  c2_chunk_size_bound ['a'] 8000 ['a'] (by decide)

/-- Claim C3 is false as stated: the text `"\n\n"` is non-empty, yet
`chunk` returns the empty sequence for it. -/
theorem c3_counterexample :
    (['\n', '\n'] : List Char) ≠ [] ∧ chunkText ['\n', '\n'] 8000 = [] := by
  decide

/-- Witness for claim C9 at a concrete input: chunking `"ab.\tcd"` with
`max_size = 2` produces an empty chunk. -/
theorem c9_witness : [] ∈ chunkText ['a', 'b', '.', '\t', 'c', 'd'] 2 :=
  c9_empty_chunk ['a', 'b', '.', '\t', 'c', 'd'] 2 ['a', 'b', '.', '\t', 'c', 'd']
    (by decide) (by decide) (by decide)

/-! ## Formatter client and Extractor claims -/

/-- Claim C10: on HTTP 200 with a JSON body lacking the `response` field
the Formatter client returns the empty string rather than raising, and it
raises an error exactly when the HTTP status is not 200. -/
theorem c10_missing_response_field (r : GenResponse) :
    (r.status = 200 → List.lookup respKey r.json = none → handleResponse r = Except.ok []) ∧
    ((∃ e, handleResponse r = Except.error e) ↔ r.status ≠ 200) := by
  constructor
  · intro h200 hnone
    rw [handleResponse, if_pos h200, hnone]
    rfl
  · constructor
    · rintro ⟨e, he⟩ h200
      rw [handleResponse, if_pos h200] at he
      cases he
    · intro hne
      refine ⟨errMsg r.text, ?_⟩
      rw [handleResponse, if_neg hne]

/-- Witness for claim C10 at a concrete response. -/
theorem c10_witness : handleResponse ⟨200, [], []⟩ = Except.ok [] :=
  (c10_missing_response_field ⟨200, [], []⟩).1 rfl rfl

/-- Claim C8 is false: when the first page's extraction raises, the
function propagates the exception without ever reaching
`document.close()`, so the close event is absent from the trace. -/
theorem c8_counterexample :
    PdfEvent.closeDoc ∉ (extractTextFromPdf [Except.error ['b']]).1 := by
  decide

/-- Claim C8, amended: the Extractor closes the document on the normal
path (open followed by close when every page extracts), but when a page's
extraction raises an error the exception propagates without the handle
being closed. -/
theorem c8_amended_close_behavior (doc : List (Except (List Char) (List Char))) :
    ((∃ recs, (extractTextFromPdf doc).2 = Except.ok recs) →
      (extractTextFromPdf doc).1 = [PdfEvent.openDoc, PdfEvent.closeDoc]) ∧
    ((∃ e, (extractTextFromPdf doc).2 = Except.error e) →
      PdfEvent.closeDoc ∉ (extractTextFromPdf doc).1) := by
  rcases h : extractLoop 0 doc with e | recs
  · have hval : extractTextFromPdf doc = ([PdfEvent.openDoc], Except.error e) := by
      rw [extractTextFromPdf, h]
    rw [hval]
    constructor
    · rintro ⟨recs, hr⟩
      cases hr
    · intro _
      simp
  · have hval : extractTextFromPdf doc =
        ([PdfEvent.openDoc, PdfEvent.closeDoc], Except.ok recs) := by
      rw [extractTextFromPdf, h]
    rw [hval]
    constructor
    · intro _
      rfl
    · rintro ⟨e, he⟩
      cases he

/-- Witness for the amended claim C8 at a concrete failing document. -/
theorem c8_witness :
    PdfEvent.closeDoc ∉ (extractTextFromPdf [Except.error ['x']]).1 :=
  (c8_amended_close_behavior [Except.error ['x']]).2 ⟨['x'], rfl⟩

/-! ## Assembler claims -/

theorem sectionsLoop_head (net : List Char → Instr → GenResponse) (full : List Char)
    (i : Nat) (is : List Nat) (acc : List Char) :
    ∃ rest, (sectionsLoop net full (i :: is) acc).1 =
      Event.call ((full.drop i).take 10000) (Instr.sectionPass (i / 9000 + 1)) :: rest := by
  rw [sectionsLoop]
  rcases h : handleResponse (net ((full.drop i).take 10000) (Instr.sectionPass (i / 9000 + 1))) with e | out
  · exact ⟨[], rfl⟩
  · dsimp only
    rcases h2 : sectionsLoop net full is (acc ++ out) with ⟨es2, r⟩
    exact ⟨es2, rfl⟩

/-- Claim C4: a full-document buffer of exactly 12000 characters takes the
direct single final-format path, and the sectioning path (witnessed by a
section-numbered call in the trace) is taken if and only if the buffer is
strictly longer than 12000 characters. -/
theorem c4_document_phase_boundary (net : List Char → Instr → GenResponse) (full : List Char) :
    (full.length = 12000 →
      documentPhase net full =
        ([Event.call full Instr.finalPass], handleResponse (net full Instr.finalPass))) ∧
    ((∃ c k, Event.call c (Instr.sectionPass k) ∈ (documentPhase net full).1) ↔
      12000 < full.length) := by
  constructor
  · intro h12
    rw [documentPhase, if_neg (by omega)]
  · by_cases hlen : 12000 < full.length
    · refine ⟨fun _ => hlen, fun _ => ?_⟩
      have h0 : rangeStride9000 0 full.length = 0 :: rangeStride9000 9000 full.length := by
        rw [rangeStride9000, if_pos (by omega)]
      obtain ⟨rest, hhead⟩ := sectionsLoop_head net full 0 (rangeStride9000 9000 full.length) []
      refine ⟨(full.drop 0).take 10000, 0 / 9000 + 1, ?_⟩
      rw [documentPhase, if_pos hlen, h0]
      rcases hsl : sectionsLoop net full (0 :: rangeStride9000 9000 full.length) [] with ⟨es, r⟩
      rw [hsl] at hhead
      simp only at hhead
      rcases r with e | fc
      · simp [hhead]
      · simp [hhead]
    · constructor
      · rintro ⟨c, k, hmem⟩
        rw [documentPhase, if_neg hlen] at hmem
        simp at hmem
      · intro h
        exact absurd h hlen

/-- Witness for claim C4 at a buffer of exactly 12000 characters. -/
theorem c4_witness :
    documentPhase okNet (List.replicate 12000 'a') =
      ([Event.call (List.replicate 12000 'a') Instr.finalPass],
        handleResponse (okNet (List.replicate 12000 'a') Instr.finalPass)) :=
  (c4_document_phase_boundary okNet (List.replicate 12000 'a')).1 (by rw [List.length_replicate])

/-! ## Failure propagation (C5) -/

theorem handleResponse_error (r : GenResponse) (e : List Char)
    (h : handleResponse r = Except.error e) : r.status ≠ 200 ∧ e = errMsg r.text := by
  by_cases h200 : r.status = 200
  · rw [handleResponse, if_pos h200] at h
    cases h
  · rw [handleResponse, if_neg h200] at h
    injection h with h2
    exact ⟨h200, h2.symm⟩

theorem FailTrace_append (net : List Char → Instr → GenResponse) (es1 es2 : List Event)
    (e : List Char) (h : FailTrace net es2 e) : FailTrace net (es1 ++ es2) e := by
  obtain ⟨t, c, i, ht, h1, h2⟩ := h
  exact ⟨es1 ++ t, c, i, by rw [ht, List.append_assoc], h1, h2⟩

theorem FailTrace_cons (net : List Char → Instr → GenResponse) (ev : Event) (es : List Event)
    (e : List Char) (h : FailTrace net es e) : FailTrace net (ev :: es) e :=
  FailTrace_append net [ev] es e h

theorem FailTrace_single (net : List Char → Instr → GenResponse) (c : List Char) (i : Instr)
    (e : List Char) (h : handleResponse (net c i) = Except.error e) :
    FailTrace net [Event.call c i] e := by
  obtain ⟨h1, h2⟩ := handleResponse_error _ _ h
  exact ⟨[], c, i, by simp, h1, h2⟩

theorem noWrite_nil : NoWrite [] := by
  intro x hx
  simp at hx

theorem noWrite_single_call (c : List Char) (i : Instr) : NoWrite [Event.call c i] := by
  intro x hx
  simp at hx

theorem noWrite_cons_call (c : List Char) (i : Instr) (es : List Event) (h : NoWrite es) :
    NoWrite (Event.call c i :: es) := by
  intro x hx
  rcases List.mem_cons.mp hx with h1 | h1
  · exact Event.noConfusion h1
  · exact h x h1

theorem noWrite_append (a b : List Event) (ha : NoWrite a) (hb : NoWrite b) :
    NoWrite (a ++ b) := by
  intro x hx
  rcases List.mem_append.mp hx with h | h
  · exact ha x h
  · exact hb x h

theorem processChunks_trace (net : List Char → Instr → GenResponse) (pn total j : Nat)
    (ch : List Char) (chs : List (List Char)) (out : List Char) (es2 : List Event)
    (r : Except (List Char) (List (List Char)))
    (hr : handleResponse (net ch (Instr.chunkConv pn (j + 1) total)) = Except.ok out)
    (h2 : processChunks net pn total (j + 1) chs = (es2, r)) :
    (processChunks net pn total j (ch :: chs)).1 =
      Event.call ch (Instr.chunkConv pn (j + 1) total) :: es2 := by
  rw [processChunks, hr]
  dsimp only
  rw [h2]
  rcases r with e | outs <;> rfl

theorem processChunks_fail (net : List Char → Instr → GenResponse) (pn total : Nat) :
    ∀ chs j e, (processChunks net pn total j chs).2 = Except.error e →
      FailTrace net (processChunks net pn total j chs).1 e := by
  intro chs
  induction chs with
  | nil =>
    intro j e h
    simp [processChunks] at h
  | cons ch chs ih =>
    intro j e h
    rcases hr : handleResponse (net ch (Instr.chunkConv pn (j + 1) total)) with e2 | out
    · have heq : processChunks net pn total j (ch :: chs) =
          ([Event.call ch (Instr.chunkConv pn (j + 1) total)], Except.error e2) := by
        rw [processChunks, hr]
      rw [heq] at h ⊢
      dsimp only at h ⊢
      injection h with h2
      subst h2
      exact FailTrace_single net _ _ _ hr
    · rcases h2 : processChunks net pn total (j + 1) chs with ⟨es2, r⟩
      have heq1 := processChunks_trace net pn total j ch chs out es2 r hr h2
      rcases r with e3 | outs
      · have heq2 : (processChunks net pn total j (ch :: chs)).2 = Except.error e3 := by
          rw [processChunks, hr]
          dsimp only
          rw [h2]
        rw [heq1]
        rw [heq2] at h
        injection h with h3
        subst h3
        refine FailTrace_cons net _ _ e3 ?_
        have hih := ih (j + 1) e3 (by rw [h2])
        rwa [h2] at hih
      · have heq2 : (processChunks net pn total j (ch :: chs)).2 = Except.ok (out :: outs) := by
          rw [processChunks, hr]
          dsimp only
          rw [h2]
        rw [heq2] at h
        cases h

theorem processChunks_noWrite (net : List Char → Instr → GenResponse) (pn total : Nat) :
    ∀ chs j, NoWrite (processChunks net pn total j chs).1 := by
  intro chs
  induction chs with
  | nil =>
    intro j
    exact noWrite_nil
  | cons ch chs ih =>
    intro j
    rcases hr : handleResponse (net ch (Instr.chunkConv pn (j + 1) total)) with e2 | out
    · have heq : processChunks net pn total j (ch :: chs) =
          ([Event.call ch (Instr.chunkConv pn (j + 1) total)], Except.error e2) := by
        rw [processChunks, hr]
      rw [heq]
      exact noWrite_single_call _ _
    · rcases h2 : processChunks net pn total (j + 1) chs with ⟨es2, r⟩
      rw [processChunks_trace net pn total j ch chs out es2 r hr h2]
      refine noWrite_cons_call _ _ _ ?_
      have hih := ih (j + 1)
      rwa [h2] at hih

theorem processPage_long_trace (net : List Char → Instr → GenResponse) (pn : Nat)
    (text : List Char) (hlen : 8000 < text.length) (es : List Event)
    (outs : List (List Char))
    (hpc : processChunks net pn (chunkText text 8000).length 0 (chunkText text 8000) =
      (es, Except.ok outs)) :
    processPage net pn text =
      (es ++ [Event.call (joinNN outs) (Instr.combine pn)],
        handleResponse (net (joinNN outs) (Instr.combine pn))) := by
  rw [processPage, if_pos hlen, hpc]

theorem processPage_long_error (net : List Char → Instr → GenResponse) (pn : Nat)
    (text : List Char) (hlen : 8000 < text.length) (es : List Event) (e : List Char)
    (hpc : processChunks net pn (chunkText text 8000).length 0 (chunkText text 8000) =
      (es, Except.error e)) :
    processPage net pn text = (es, Except.error e) := by
  rw [processPage, if_pos hlen, hpc]

theorem processPage_fail (net : List Char → Instr → GenResponse) (pn : Nat)
    (text : List Char) (e : List Char) (h : (processPage net pn text).2 = Except.error e) :
    FailTrace net (processPage net pn text).1 e := by
  by_cases hlen : 8000 < text.length
  · rcases hpc : processChunks net pn (chunkText text 8000).length 0 (chunkText text 8000)
      with ⟨es, r⟩
    rcases r with e2 | outs
    · rw [processPage_long_error net pn text hlen es e2 hpc] at h ⊢
      dsimp only at h ⊢
      injection h with h2
      subst h2
      have hpf := processChunks_fail net pn (chunkText text 8000).length (chunkText text 8000) 0 e2
        (by rw [hpc])
      rwa [hpc] at hpf
    · rw [processPage_long_trace net pn text hlen es outs hpc] at h ⊢
      dsimp only at h ⊢
      obtain ⟨h1, h2⟩ := handleResponse_error _ _ h
      exact ⟨es, joinNN outs, Instr.combine pn, rfl, h1, h2⟩
  · rw [processPage, if_neg hlen] at h ⊢
    exact FailTrace_single net text (Instr.pageConv pn) e h

theorem processPage_noWrite (net : List Char → Instr → GenResponse) (pn : Nat)
    (text : List Char) : NoWrite (processPage net pn text).1 := by
  by_cases hlen : 8000 < text.length
  · rcases hpc : processChunks net pn (chunkText text 8000).length 0 (chunkText text 8000)
      with ⟨es, r⟩
    have hes : NoWrite es := by
      have h1 := processChunks_noWrite net pn (chunkText text 8000).length (chunkText text 8000) 0
      rwa [hpc] at h1
    rcases r with e2 | outs
    · rw [processPage_long_error net pn text hlen es e2 hpc]
      exact hes
    · rw [processPage_long_trace net pn text hlen es outs hpc]
      exact noWrite_append _ _ hes (noWrite_single_call _ _)
  · rw [processPage, if_neg hlen]
    exact noWrite_single_call _ _

theorem pagesLoop_cons_error (net : List Char → Instr → GenResponse) (i : Nat)
    (t : List Char) (ts : List (List Char)) (acc : List Char) (es : List Event) (e : List Char)
    (hpp : processPage net (i + 1) t = (es, Except.error e)) :
    pagesLoop net i (t :: ts) acc = (es, Except.error e) := by
  rw [pagesLoop, hpp]

theorem pagesLoop_cons_ok (net : List Char → Instr → GenResponse) (i : Nat)
    (t : List Char) (ts : List (List Char)) (acc : List Char) (es es2 : List Event)
    (out : List Char) (r : Except (List Char) (List Char))
    (hpp : processPage net (i + 1) t = (es, Except.ok out))
    (hrec : pagesLoop net (i + 1) ts (acc ++ out ++ nn) = (es2, r)) :
    pagesLoop net i (t :: ts) acc = (es ++ es2, r) := by
  rw [pagesLoop, hpp]
  dsimp only
  rw [hrec]

theorem pagesLoop_fail (net : List Char → Instr → GenResponse) :
    ∀ ts i acc e, (pagesLoop net i ts acc).2 = Except.error e →
      FailTrace net (pagesLoop net i ts acc).1 e := by
  intro ts
  induction ts with
  | nil =>
    intro i acc e h
    simp [pagesLoop] at h
  | cons t ts ih =>
    intro i acc e h
    rcases hpp : processPage net (i + 1) t with ⟨es, r⟩
    rcases r with e2 | out
    · rw [pagesLoop_cons_error net i t ts acc es e2 hpp] at h ⊢
      dsimp only at h ⊢
      injection h with h2
      subst h2
      have hpf := processPage_fail net (i + 1) t e2 (by rw [hpp])
      rwa [hpp] at hpf
    · rcases hrec : pagesLoop net (i + 1) ts (acc ++ out ++ nn) with ⟨es2, r2⟩
      rw [pagesLoop_cons_ok net i t ts acc es es2 out r2 hpp hrec] at h ⊢
      dsimp only at h ⊢
      have hih := ih (i + 1) (acc ++ out ++ nn) e (by rw [hrec]; exact h)
      rw [hrec] at hih
      exact FailTrace_append net es es2 e hih

theorem pagesLoop_noWrite (net : List Char → Instr → GenResponse) :
    ∀ ts i acc, NoWrite (pagesLoop net i ts acc).1 := by
  intro ts
  induction ts with
  | nil =>
    intro i acc
    exact noWrite_nil
  | cons t ts ih =>
    intro i acc
    rcases hpp : processPage net (i + 1) t with ⟨es, r⟩
    have hes : NoWrite es := by
      have h1 := processPage_noWrite net (i + 1) t
      rwa [hpp] at h1
    rcases r with e2 | out
    · rw [pagesLoop_cons_error net i t ts acc es e2 hpp]
      exact hes
    · rcases hrec : pagesLoop net (i + 1) ts (acc ++ out ++ nn) with ⟨es2, r2⟩
      rw [pagesLoop_cons_ok net i t ts acc es es2 out r2 hpp hrec]
      refine noWrite_append _ _ hes ?_
      have hih := ih (i + 1) (acc ++ out ++ nn)
      rwa [hrec] at hih

theorem sectionsLoop_cons_error (net : List Char → Instr → GenResponse) (full : List Char)
    (i : Nat) (is : List Nat) (acc : List Char) (e : List Char)
    (hr : handleResponse (net ((full.drop i).take 10000) (Instr.sectionPass (i / 9000 + 1))) =
      Except.error e) :
    sectionsLoop net full (i :: is) acc =
      ([Event.call ((full.drop i).take 10000) (Instr.sectionPass (i / 9000 + 1))],
        Except.error e) := by
  rw [sectionsLoop, hr]

theorem sectionsLoop_cons_ok (net : List Char → Instr → GenResponse) (full : List Char)
    (i : Nat) (is : List Nat) (acc out : List Char) (es2 : List Event)
    (r : Except (List Char) (List Char))
    (hr : handleResponse (net ((full.drop i).take 10000) (Instr.sectionPass (i / 9000 + 1))) =
      Except.ok out)
    (hrec : sectionsLoop net full is (acc ++ out) = (es2, r)) :
    sectionsLoop net full (i :: is) acc =
      (Event.call ((full.drop i).take 10000) (Instr.sectionPass (i / 9000 + 1)) :: es2, r) := by
  rw [sectionsLoop, hr]
  dsimp only
  rw [hrec]

theorem sectionsLoop_fail (net : List Char → Instr → GenResponse) (full : List Char) :
    ∀ is acc e, (sectionsLoop net full is acc).2 = Except.error e →
      FailTrace net (sectionsLoop net full is acc).1 e := by
  intro is
  induction is with
  | nil =>
    intro acc e h
    simp [sectionsLoop] at h
  | cons i is ih =>
    intro acc e h
    rcases hr : handleResponse (net ((full.drop i).take 10000) (Instr.sectionPass (i / 9000 + 1)))
      with e2 | out
    · rw [sectionsLoop_cons_error net full i is acc e2 hr] at h ⊢
      dsimp only at h ⊢
      injection h with h2
      subst h2
      exact FailTrace_single net _ _ _ hr
    · rcases hrec : sectionsLoop net full is (acc ++ out) with ⟨es2, r2⟩
      rw [sectionsLoop_cons_ok net full i is acc out es2 r2 hr hrec] at h ⊢
      dsimp only at h ⊢
      have hih := ih (acc ++ out) e (by rw [hrec]; exact h)
      rw [hrec] at hih
      exact FailTrace_cons net _ _ e hih

theorem sectionsLoop_noWrite (net : List Char → Instr → GenResponse) (full : List Char) :
    ∀ is acc, NoWrite (sectionsLoop net full is acc).1 := by
  intro is
  induction is with
  | nil =>
    intro acc
    exact noWrite_nil
  | cons i is ih =>
    intro acc
    rcases hr : handleResponse (net ((full.drop i).take 10000) (Instr.sectionPass (i / 9000 + 1)))
      with e2 | out
    · rw [sectionsLoop_cons_error net full i is acc e2 hr]
      exact noWrite_single_call _ _
    · rcases hrec : sectionsLoop net full is (acc ++ out) with ⟨es2, r2⟩
      rw [sectionsLoop_cons_ok net full i is acc out es2 r2 hr hrec]
      refine noWrite_cons_call _ _ _ ?_
      have hih := ih (acc ++ out)
      rwa [hrec] at hih

theorem documentPhase_sections_error (net : List Char → Instr → GenResponse) (full : List Char)
    (hlen : 12000 < full.length) (es : List Event) (e : List Char)
    (hsl : sectionsLoop net full (rangeStride9000 0 full.length) [] = (es, Except.error e)) :
    documentPhase net full = (es, Except.error e) := by
  rw [documentPhase, if_pos hlen, hsl]

theorem documentPhase_sections_ok (net : List Char → Instr → GenResponse) (full : List Char)
    (hlen : 12000 < full.length) (es : List Event) (fc : List Char)
    (hsl : sectionsLoop net full (rangeStride9000 0 full.length) [] = (es, Except.ok fc)) :
    documentPhase net full =
      (es ++ [Event.call fc Instr.boundaryClean], handleResponse (net fc Instr.boundaryClean)) := by
  rw [documentPhase, if_pos hlen, hsl]

theorem documentPhase_fail (net : List Char → Instr → GenResponse) (full : List Char)
    (e : List Char) (h : (documentPhase net full).2 = Except.error e) :
    FailTrace net (documentPhase net full).1 e := by
  by_cases hlen : 12000 < full.length
  · rcases hsl : sectionsLoop net full (rangeStride9000 0 full.length) [] with ⟨es, r⟩
    rcases r with e2 | fc
    · rw [documentPhase_sections_error net full hlen es e2 hsl] at h ⊢
      dsimp only at h ⊢
      injection h with h2
      subst h2
      have hsf := sectionsLoop_fail net full (rangeStride9000 0 full.length) [] e2 (by rw [hsl])
      rwa [hsl] at hsf
    · rw [documentPhase_sections_ok net full hlen es fc hsl] at h ⊢
      dsimp only at h ⊢
      obtain ⟨h1, h2⟩ := handleResponse_error _ _ h
      exact ⟨es, fc, Instr.boundaryClean, rfl, h1, h2⟩
  · rw [documentPhase, if_neg hlen] at h ⊢
    exact FailTrace_single net full Instr.finalPass e h

theorem documentPhase_noWrite (net : List Char → Instr → GenResponse) (full : List Char) :
    NoWrite (documentPhase net full).1 := by
  by_cases hlen : 12000 < full.length
  · rcases hsl : sectionsLoop net full (rangeStride9000 0 full.length) [] with ⟨es, r⟩
    have hes : NoWrite es := by
      have h1 := sectionsLoop_noWrite net full (rangeStride9000 0 full.length) []
      rwa [hsl] at h1
    rcases r with e2 | fc
    · rw [documentPhase_sections_error net full hlen es e2 hsl]
      exact hes
    · rw [documentPhase_sections_ok net full hlen es fc hsl]
      exact noWrite_append _ _ hes (noWrite_single_call _ _)
  · rw [documentPhase, if_neg hlen]
    exact noWrite_single_call _ _

/-- Claim C5: if any Formatter call fails (the generation endpoint answers
with a non-200 status), the conversion aborts with the error built from
the raw response body — the trace ends at the failing call — and no file
write ever occurs in the trace, so the output file is neither created nor
overwritten. -/
theorem c5_failure_aborts_without_write (net : List Char → Instr → GenResponse)
    (pages : List (List Char)) (e : List Char)
    (h : (convertToMarkdown net pages).2 = Except.error e) :
    FailTrace net (convertToMarkdown net pages).1 e ∧
      NoWrite (convertToMarkdown net pages).1 := by
  rcases hpl : pagesLoop net 0 pages [] with ⟨es, r⟩
  rcases r with e2 | full
  · have heq : convertToMarkdown net pages = (es, Except.error e2) := by
      rw [convertToMarkdown, hpl]
    rw [heq] at h ⊢
    dsimp only at h ⊢
    injection h with h2
    subst h2
    constructor
    · have hpf := pagesLoop_fail net pages 0 [] e2 (by rw [hpl])
      rwa [hpl] at hpf
    · have hnw := pagesLoop_noWrite net pages 0 []
      rwa [hpl] at hnw
  · rcases hdp : documentPhase net full with ⟨es2, r2⟩
    rcases r2 with e2 | md
    · have heq : convertToMarkdown net pages = (es ++ es2, Except.error e2) := by
        rw [convertToMarkdown, hpl]
        dsimp only
        rw [hdp]
      rw [heq] at h ⊢
      dsimp only at h ⊢
      injection h with h2
      subst h2
      constructor
      · refine FailTrace_append net es es2 e2 ?_
        have hdf := documentPhase_fail net full e2 (by rw [hdp])
        rwa [hdp] at hdf
      · refine noWrite_append _ _ ?_ ?_
        · have hnw := pagesLoop_noWrite net pages 0 []
          rwa [hpl] at hnw
        · have hnw := documentPhase_noWrite net full
          rwa [hdp] at hnw
    · have heq : convertToMarkdown net pages = (es ++ es2 ++ [Event.write md], Except.ok md) := by
        rw [convertToMarkdown, hpl]
        dsimp only
        rw [hdp]
      rw [heq] at h
      dsimp only at h
      cases h

/-- Witness for claim C5: with an endpoint that always answers HTTP 500
with body `"b"`, converting a one-page document aborts on the first call
with the corresponding error and writes nothing. -/
theorem c5_witness :
    FailTrace failNet (convertToMarkdown failNet [['a']]).1 (errMsg ['b']) ∧
      NoWrite (convertToMarkdown failNet [['a']]).1 :=
  c5_failure_aborts_without_write failNet [['a']] (errMsg ['b']) rfl

/-! ## The sectioning pass as overlapping windows (C6) -/

theorem windowsFrom_zero (full : List Char) : windowsFrom full 0 = specWindows full := by
  rw [windowsFrom, specWindows, Nat.sub_zero, List.range_eq_range']

theorem specSectionLoop_cons_error (net : List Char → Instr → GenResponse) (k : Nat)
    (w : List Char) (ws : List (List Char)) (e : List Char)
    (hr : handleResponse (net w (Instr.sectionPass (k + 1))) = Except.error e) :
    specSectionLoop net k (w :: ws) =
      ([Event.call w (Instr.sectionPass (k + 1))], Except.error e) := by
  rw [specSectionLoop, hr]

theorem specSectionLoop_cons_ok_err (net : List Char → Instr → GenResponse) (k : Nat)
    (w : List Char) (ws : List (List Char)) (out : List Char) (es2 : List Event) (e : List Char)
    (hr : handleResponse (net w (Instr.sectionPass (k + 1))) = Except.ok out)
    (h2 : specSectionLoop net (k + 1) ws = (es2, Except.error e)) :
    specSectionLoop net k (w :: ws) =
      (Event.call w (Instr.sectionPass (k + 1)) :: es2, Except.error e) := by
  rw [specSectionLoop, hr]
  dsimp only
  rw [h2]

theorem specSectionLoop_cons_ok_ok (net : List Char → Instr → GenResponse) (k : Nat)
    (w : List Char) (ws : List (List Char)) (out : List Char) (es2 : List Event) (rest : List Char)
    (hr : handleResponse (net w (Instr.sectionPass (k + 1))) = Except.ok out)
    (h2 : specSectionLoop net (k + 1) ws = (es2, Except.ok rest)) :
    specSectionLoop net k (w :: ws) =
      (Event.call w (Instr.sectionPass (k + 1)) :: es2, Except.ok (out ++ rest)) := by
  rw [specSectionLoop, hr]
  dsimp only
  rw [h2]

theorem sectionsLoop_eq_spec (net : List Char → Instr → GenResponse) (full : List Char) :
    ∀ m k acc, specWindowCount full.length - k = m →
      (∃ es e, specSectionLoop net k (windowsFrom full k) = (es, Except.error e) ∧
        sectionsLoop net full (rangeStride9000 (9000 * k) full.length) acc =
          (es, Except.error e)) ∨
      (∃ es rest, specSectionLoop net k (windowsFrom full k) = (es, Except.ok rest) ∧
        sectionsLoop net full (rangeStride9000 (9000 * k) full.length) acc =
          (es, Except.ok (acc ++ rest))) := by
  intro m
  induction m with
  | zero =>
    intro k acc hm
    have hk : full.length ≤ 9000 * k := by
      rw [specWindowCount] at hm
      omega
    have h1 : rangeStride9000 (9000 * k) full.length = [] := by
      rw [rangeStride9000, if_neg (by omega)]
    have h2 : windowsFrom full k = [] := by
      rw [windowsFrom, hm, List.range'_zero, List.map_nil]
    refine Or.inr ⟨[], [], ?_, ?_⟩
    · rw [h2, specSectionLoop]
    · rw [h1, sectionsLoop, List.append_nil]
  | succ m ih =>
    intro k acc hm
    have hk : 9000 * k < full.length := by
      rw [specWindowCount] at hm
      omega
    have h1 : rangeStride9000 (9000 * k) full.length =
        (9000 * k) :: rangeStride9000 (9000 * (k + 1)) full.length := by
      rw [rangeStride9000, if_pos hk]
      have h : 9000 * k + 9000 = 9000 * (k + 1) := by ring
      rw [h]
    have h2 : windowsFrom full k = ((full.drop (9000 * k)).take 10000) :: windowsFrom full (k + 1) := by
      rw [windowsFrom, windowsFrom]
      have hcnt : specWindowCount full.length - k = (specWindowCount full.length - (k + 1)) + 1 := by
        rw [specWindowCount] at hm ⊢
        omega
      rw [hcnt, List.range'_succ, List.map_cons]
    have hdiv : 9000 * k / 9000 = k := by
      omega
    rw [h1, h2]
    rcases hr : handleResponse (net ((full.drop (9000 * k)).take 10000) (Instr.sectionPass (k + 1)))
      with e | out
    · refine Or.inl ⟨[Event.call ((full.drop (9000 * k)).take 10000) (Instr.sectionPass (k + 1))],
        e, ?_, ?_⟩
      · rw [specSectionLoop_cons_error net k _ _ e hr]
      · have hL := sectionsLoop_cons_error net full (9000 * k)
          (rangeStride9000 (9000 * (k + 1)) full.length) acc e (by rw [hdiv]; exact hr)
        rw [hdiv] at hL
        exact hL
    · rcases ih (k + 1) (acc ++ out) (by omega) with ⟨es2, e, hspec, hcode⟩ | ⟨es2, rest, hspec, hcode⟩
      · refine Or.inl ⟨Event.call ((full.drop (9000 * k)).take 10000) (Instr.sectionPass (k + 1)) :: es2,
          e, ?_, ?_⟩
        · rw [specSectionLoop_cons_ok_err net k _ _ out es2 e hr hspec]
        · have hL := sectionsLoop_cons_ok net full (9000 * k)
            (rangeStride9000 (9000 * (k + 1)) full.length) acc out es2 (Except.error e)
            (by rw [hdiv]; exact hr) hcode
          rw [hdiv] at hL
          exact hL
      · refine Or.inr ⟨Event.call ((full.drop (9000 * k)).take 10000) (Instr.sectionPass (k + 1)) :: es2,
          out ++ rest, ?_, ?_⟩
        · rw [specSectionLoop_cons_ok_ok net k _ _ out es2 rest hr hspec]
        · have hL := sectionsLoop_cons_ok net full (9000 * k)
            (rangeStride9000 (9000 * (k + 1)) full.length) acc out es2
            (Except.ok (acc ++ out ++ rest)) (by rw [hdiv]; exact hr) hcode
          rw [hdiv] at hL
          rw [hL, List.append_assoc]

theorem documentPhaseSpec_error (net : List Char → Instr → GenResponse) (full : List Char)
    (es : List Event) (e : List Char)
    (hspec : specSectionLoop net 0 (specWindows full) = (es, Except.error e)) :
    documentPhaseSpec net full = (es, Except.error e) := by
  rw [documentPhaseSpec, hspec, afterSections]

theorem documentPhaseSpecOk (net : List Char → Instr → GenResponse) (full : List Char)
    (es : List Event) (fc : List Char)
    (hspec : specSectionLoop net 0 (specWindows full) = (es, Except.ok fc)) :
    documentPhaseSpec net full =
      (es ++ [Event.call fc Instr.boundaryClean], handleResponse (net fc Instr.boundaryClean)) := by
  rw [documentPhaseSpec, hspec, afterSections]

/-- Claim C6: when the buffer exceeds 12000 characters the document phase
is exactly the spec's windowed pass — the 10000-character slices at
offsets 0, 9000, 18000, … (stride 9000, overlap 1000), each formatted
independently with the section instruction numbered from 1, the outputs
concatenated with no separator, followed by one boundary-cleanup call on
the concatenation. -/
theorem c6_sectioning_windows (net : List Char → Instr → GenResponse) (full : List Char)
    (hlen : 12000 < full.length) :
    documentPhase net full = documentPhaseSpec net full := by
  have h90 : (9000 : Nat) * 0 = 0 := by ring
  rcases sectionsLoop_eq_spec net full (specWindowCount full.length) 0 [] (by omega) with
    ⟨es, e, hspec, hcode⟩ | ⟨es, rest, hspec, hcode⟩
  · rw [windowsFrom_zero] at hspec
    rw [h90] at hcode
    exact (documentPhase_sections_error net full hlen es e hcode).trans
      (documentPhaseSpec_error net full es e hspec).symm
  · rw [windowsFrom_zero] at hspec
    rw [h90, List.nil_append] at hcode
    exact (documentPhase_sections_ok net full hlen es rest hcode).trans
      (documentPhaseSpecOk net full es rest hspec).symm

/-- Witness for claim C6 at a concrete oversized buffer. -/
theorem c6_witness :
    documentPhase okNet (List.replicate 12001 'a') = documentPhaseSpec okNet (List.replicate 12001 'a') :=
  c6_sectioning_windows okNet (List.replicate 12001 'a')
    (by rw [List.length_replicate]; norm_num)

/-! ## Order preservation (C7) -/

theorem processChunks_snd_ok (net : List Char → Instr → GenResponse) (pn total j : Nat)
    (ch : List Char) (chs : List (List Char)) (out : List Char) (es2 : List Event)
    (outs2 : List (List Char))
    (hr : handleResponse (net ch (Instr.chunkConv pn (j + 1) total)) = Except.ok out)
    (h2 : processChunks net pn total (j + 1) chs = (es2, Except.ok outs2)) :
    (processChunks net pn total j (ch :: chs)).2 = Except.ok (out :: outs2) := by
  rw [processChunks, hr]
  dsimp only
  rw [h2]

theorem processChunks_ok (net : List Char → Instr → GenResponse) (pn total : Nat) :
    ∀ chs j outs, (processChunks net pn total j chs).2 = Except.ok outs →
      outs.length = chs.length ∧
      ∀ m, m < chs.length →
        handleResponse (net (chs.getD m []) (Instr.chunkConv pn (j + m + 1) total)) =
          Except.ok (outs.getD m []) := by
  intro chs
  induction chs with
  | nil =>
    intro j outs h
    rw [processChunks] at h
    dsimp only at h
    injection h with h2
    subst h2
    exact ⟨rfl, fun m hm => absurd hm (by simp)⟩
  | cons ch chs ih =>
    intro j outs h
    rcases hr : handleResponse (net ch (Instr.chunkConv pn (j + 1) total)) with e2 | out
    · have heq : processChunks net pn total j (ch :: chs) =
          ([Event.call ch (Instr.chunkConv pn (j + 1) total)], Except.error e2) := by
        rw [processChunks, hr]
      rw [heq] at h
      cases h
    · rcases h2 : processChunks net pn total (j + 1) chs with ⟨es2, r⟩
      rcases r with e3 | outs2
      · have heq : (processChunks net pn total j (ch :: chs)).2 = Except.error e3 := by
          rw [processChunks, hr]
          dsimp only
          rw [h2]
        rw [heq] at h
        cases h
      · rw [processChunks_snd_ok net pn total j ch chs out es2 outs2 hr h2] at h
        injection h with h3
        obtain ⟨hlen, hidx⟩ := ih (j + 1) outs2 (by rw [h2])
        subst h3
        refine ⟨by simp [hlen], ?_⟩
        intro m hm
        cases m with
        | zero =>
          simpa using hr
        | succ m =>
          have hm2 : m < chs.length := by
            simpa using hm
          have := hidx m hm2
          have harith : j + 1 + m + 1 = j + (m + 1) + 1 := by omega
          rw [harith] at this
          simpa using this

theorem pagesLoop_ok (net : List Char → Instr → GenResponse) :
    ∀ ts i acc full, (pagesLoop net i ts acc).2 = Except.ok full →
      ∃ outs : List (List Char),
        outs.length = ts.length ∧
        full = acc ++ concatPages outs ∧
        ∀ k, k < ts.length →
          (processPage net (i + k + 1) (ts.getD k [])).2 = Except.ok (outs.getD k []) := by
  intro ts
  induction ts with
  | nil =>
    intro i acc full h
    rw [pagesLoop] at h
    dsimp only at h
    injection h with h2
    subst h2
    exact ⟨[], rfl, by rw [concatPages, List.append_nil], fun k hk => absurd hk (by simp)⟩
  | cons t ts ih =>
    intro i acc full h
    rcases hpp : processPage net (i + 1) t with ⟨es, r⟩
    rcases r with e2 | out
    · rw [pagesLoop_cons_error net i t ts acc es e2 hpp] at h
      cases h
    · rcases hrec : pagesLoop net (i + 1) ts (acc ++ out ++ nn) with ⟨es2, r2⟩
      rw [pagesLoop_cons_ok net i t ts acc es es2 out r2 hpp hrec] at h
      dsimp only at h
      obtain ⟨outs2, hlen2, hfull, hidx⟩ := ih (i + 1) (acc ++ out ++ nn) full (by rw [hrec]; exact h)
      refine ⟨out :: outs2, by simp [hlen2], ?_, ?_⟩
      · rw [hfull, concatPages]
        simp [List.append_assoc]
      · intro k hk
        cases k with
        | zero =>
          simp only [List.getD_cons_zero]
          rw [hpp]
        | succ k =>
          have hk2 : k < ts.length := by
            simpa using hk
          have := hidx k hk2
          have harith : i + 1 + k + 1 = i + (k + 1) + 1 := by omega
          rw [harith] at this
          simpa using this

/-- Claim C7: concatenation order is preserved end to end.  When the page
loop succeeds, the full-document buffer is exactly the concatenation, in
input page order 1, 2, …, n, of the per-page outputs (each with its
trailing blank line); and each oversized page's combining call receives
the blank-line join of its chunk outputs in chunker order, one generation
call per chunk with ascending 1-based chunk numbers. -/
theorem c7_order_preserved (net : List Char → Instr → GenResponse)
    (pages : List (List Char)) (full : List Char)
    (h : (pagesLoop net 0 pages []).2 = Except.ok full) :
    ∃ outs : List (List Char),
      outs.length = pages.length ∧
      full = concatPages outs ∧
      (∀ k, k < pages.length →
        (processPage net (k + 1) (pages.getD k [])).2 = Except.ok (outs.getD k [])) ∧
      (∀ k, k < pages.length → 8000 < (pages.getD k []).length →
        ∃ couts : List (List Char),
          ChunkCallsOk net (k + 1) (pages.getD k []) couts ∧
          (processPage net (k + 1) (pages.getD k [])).2 =
            handleResponse (net (joinNN couts) (Instr.combine (k + 1)))) := by
  obtain ⟨outs, hlen, hfull, hidx⟩ := pagesLoop_ok net pages 0 [] full h
  refine ⟨outs, hlen, by simpa using hfull, ?_, ?_⟩
  · intro k hk
    have := hidx k hk
    simpa using this
  · intro k hk hbig
    rcases hpc : processChunks net (k + 1) (chunkText (pages.getD k []) 8000).length 0
        (chunkText (pages.getD k []) 8000) with ⟨es, r⟩
    rcases r with e2 | couts
    · have heq := processPage_long_error net (k + 1) (pages.getD k []) hbig es e2 hpc
      have hi := hidx k hk
      simp only [Nat.zero_add] at hi
      rw [heq] at hi
      cases hi
    · have heq := processPage_long_trace net (k + 1) (pages.getD k []) hbig es couts hpc
      obtain ⟨hclen, hcidx⟩ :=
        processChunks_ok net (k + 1) (chunkText (pages.getD k []) 8000).length
          (chunkText (pages.getD k []) 8000) 0 couts (by rw [hpc])
      refine ⟨couts, ⟨hclen, ?_⟩, ?_⟩
      · intro m hm
        have := hcidx m hm
        have harith : 0 + m + 1 = m + 1 := by omega
        rwa [harith] at this
      · rw [heq]

/-- Witness for claim C7 at a concrete one-page document. -/
theorem c7_witness :
    ∃ outs : List (List Char),
      outs.length = [['a']].length ∧
      (['\n', '\n'] : List Char) = concatPages outs ∧
      (∀ k, k < [['a']].length →
        (processPage okNet (k + 1) ([['a']].getD k [])).2 = Except.ok (outs.getD k [])) ∧
      (∀ k, k < [['a']].length → 8000 < ([['a']].getD k []).length →
        ∃ couts : List (List Char),
          ChunkCallsOk okNet (k + 1) ([['a']].getD k []) couts ∧
          (processPage okNet (k + 1) ([['a']].getD k [])).2 =
            handleResponse (okNet (joinNN couts) (Instr.combine (k + 1)))) :=
  c7_order_preserved okNet [['a']] ['\n', '\n'] rfl
